import Mathlib

/-!
Shallow embedding of `replace_ucode.py`.

Bytes are modelled as `List Nat`; a well-formed byte string has every
element `< 256` (Python `bytes` guarantees this; theorems carry it as a
hypothesis where it matters).  Fallible constructors (`FFS.__init__`,
`IntelUCode.__init__`) become `Except`-valued functions; Python's
`ValueError` raised by `ctypes.from_buffer_copy` on a too-short buffer is
a distinct error constructor from `ChksumError`, because the program
catches them differently.  Loops whose termination is part of what is
being verified (`print_concatenated_ucode`, the `__main__` patch loop)
are given explicit fuel.
-/

namespace ReplaceUcode

deriving instance DecidableEq for Except

/-- Little-endian value of a byte chunk (least significant byte first). -/
def leVal (l : List Nat) : Nat := l.foldr (fun b acc => b + 256 * acc) 0

/-- Chunk-splitting worker with structural fuel (any `fuel ≥ data.length`
behaves identically, see `wordsOfAux_congr`). -/
def wordsOfAux (w : Nat) : Nat → List Nat → List (List Nat)
  | 0, _ => []
  | fuel + 1, data =>
    if w = 0 ∨ data.length < w then []
    else data.take w :: wordsOfAux w fuel (data.drop w)

/-- Split `data` into consecutive `w`-byte chunks, dropping the trailing
partial chunk — mirrors `A = typ * (len(data) // sizeof(typ))` followed by
`A.from_buffer_copy(data, 0)`, which copies only the first
`(len // sizeof) * sizeof` bytes. -/
def wordsOf (w : Nat) (data : List Nat) : List (List Nat) :=
  wordsOfAux w data.length data

/-- `array_sum(data, typ)`: sum the `w`-byte little-endian words of `data`
and wrap to the word width (`sum(a) & typ(-1).value`). -/
def array_sum (data : List Nat) (w : Nat) : Nat :=
  ((wordsOf w data).map leVal).sum % 2 ^ (8 * w)

/-- Read the little-endian 32-bit word at byte offset `i` (ctypes `c_uint32`
field of a packed little-endian struct). -/
def rd32 (d : List Nat) (i : Nat) : Nat :=
  d.getD i 0 + 256 * d.getD (i + 1) 0 + 65536 * d.getD (i + 2) 0 +
    16777216 * d.getD (i + 3) 0

/-- Read the little-endian 16-bit word at byte offset `i`. -/
def rd16 (d : List Nat) (i : Nat) : Nat :=
  d.getD i 0 + 256 * d.getD (i + 1) 0

/-- Little-endian 4-byte encoding of a 32-bit value. -/
def le4 (v : Nat) : List Nat :=
  [v % 256, v / 256 % 256, v / 65536 % 256, v / 16777216 % 256]

/-- Little-endian 2-byte encoding of a 16-bit value. -/
def le2 (v : Nat) : List Nat := [v % 256, v / 256 % 256]

/-- `EfiFFSHeader`: 16-byte GUID, four single-byte fields, then one 32-bit
word bit-packed as a 24-bit `Size` (low bits) and an 8-bit `State` (high
byte).  (`Type` is spelled `Typ`: `Type` is reserved in Lean.) -/
@[ext]
structure EfiFFSHeader where
  GUID : List Nat
  ChkHdr : Nat
  ChkData : Nat
  Typ : Nat
  Attributes : Nat
  Size : Nat
  State : Nat
  deriving Repr, DecidableEq

/-- Decode an `EfiFFSHeader` from the first 24 bytes of a buffer
(`EfiFFSHeader.from_buffer_copy`).  The packed word decodes as
`Size = value & 0xFFFFFF`, `State = (value >> 24) & 0xFF`. -/
def decodeFFS (d : List Nat) : EfiFFSHeader :=
  { GUID := d.take 16
    ChkHdr := d.getD 16 0
    ChkData := d.getD 17 0
    Typ := d.getD 18 0
    Attributes := d.getD 19 0
    Size := rd32 d 20 % 16777216
    State := rd32 d 20 / 16777216 % 256 }

/-- Serialize an `EfiFFSHeader` back to its 24-byte layout (`bytes(hdr)`);
ctypes truncates each field to its bit width on assignment, hence the
masks.  The packed word is `(Size & 0xFFFFFF) | ((State & 0xFF) << 24)`. -/
def encodeFFS (h : EfiFFSHeader) : List Nat :=
  h.GUID.map (· % 256) ++
    [h.ChkHdr % 256, h.ChkData % 256, h.Typ % 256, h.Attributes % 256] ++
    le4 (h.Size % 16777216 + 16777216 * (h.State % 256))

/-- Errors a record constructor can raise: `ChksumError`, or the
`ValueError` that `from_buffer_copy` raises on a too-short buffer. -/
inductive RecErr where
  | chksum
  | valueErr
  deriving Repr, DecidableEq

/-- A constructed `FFS` object: decoded header plus the body slice. -/
structure FFSRec where
  hdr : EfiFFSHeader
  body : List Nat
  deriving Repr, DecidableEq

/-- The header-checksum value `FFS.__init__` tests against zero:
`chk = array_sum(data[0:24], u8); chk -= ChkData; chk -= State;
chk &= 0xff` (Python's `&` on a negative int is mod 256, i.e. `Int.emod`). -/
def ffsChk (data : List Nat) : Int :=
  ((array_sum (data.take 24) 1 : Int) - (decodeFFS data).ChkData -
    (decodeFFS data).State) % 256

/-- `FFS.__init__(data)`: decode the 24-byte header (ValueError when fewer
than 24 bytes), check the header checksum, then take the body slice
`data[24:Size]` (Python slicing clamps). -/
def FFS_init (data : List Nat) : Except RecErr FFSRec :=
  if data.length < 24 then .error .valueErr
  else if ffsChk data ≠ 0 then .error .chksum
  else .ok ⟨decodeFFS data, (data.take (decodeFFS data).Size).drop 24⟩

/-- `IntelUcodeHeader`: fixed 48-byte little-endian layout of 14 fields. -/
@[ext]
structure IntelUcodeHeader where
  HeaderType : Nat
  UpdateRevision : Nat
  Year : Nat
  Day : Nat
  Month : Nat
  ProcessorSignature : Nat
  Checksum : Nat
  LoaderRevision : Nat
  PlatformIDs : Nat
  DataSize : Nat
  TotalSize : Nat
  MetadataSize : Nat
  UpdateRevisionMin : Nat
  Reserved : Nat
  deriving Repr, DecidableEq

/-- Decode an `IntelUcodeHeader` from the first 48 bytes of a buffer
(`IntelUcodeHeader.from_buffer_copy`). -/
def decodeUcode (d : List Nat) : IntelUcodeHeader :=
  { HeaderType := rd32 d 0
    UpdateRevision := rd32 d 4
    Year := rd16 d 8
    Day := d.getD 10 0
    Month := d.getD 11 0
    ProcessorSignature := rd32 d 12
    Checksum := rd32 d 16
    LoaderRevision := rd32 d 20
    PlatformIDs := rd32 d 24
    DataSize := rd32 d 28
    TotalSize := rd32 d 32
    MetadataSize := rd32 d 36
    UpdateRevisionMin := rd32 d 40
    Reserved := rd32 d 44 }

/-- Serialize an `IntelUcodeHeader` back to its 48-byte layout. -/
def encodeUcode (h : IntelUcodeHeader) : List Nat :=
  le4 h.HeaderType ++ le4 h.UpdateRevision ++ le2 h.Year ++
    [h.Day % 256, h.Month % 256] ++ le4 h.ProcessorSignature ++
    le4 h.Checksum ++ le4 h.LoaderRevision ++ le4 h.PlatformIDs ++
    le4 h.DataSize ++ le4 h.TotalSize ++ le4 h.MetadataSize ++
    le4 h.UpdateRevisionMin ++ le4 h.Reserved

/-- A constructed `IntelUCode` object: decoded header plus
`data[:TotalSize]` (Python slicing clamps to the buffer length). -/
structure UCodeRec where
  hdr : IntelUcodeHeader
  data : List Nat
  deriving Repr, DecidableEq

/-- `IntelUCode.__init__(data)`: decode the 48-byte header (ValueError
when fewer than 48 bytes), clamp to `data[:TotalSize]`, and require the
32-bit-word sum of that slice to wrap to zero. -/
def IntelUCode_init (data : List Nat) : Except RecErr UCodeRec :=
  if data.length < 48 then .error .valueErr
  else
    let hdr := decodeUcode data
    let d := data.take hdr.TotalSize
    if array_sum d 4 ≠ 0 then .error .chksum
    else .ok ⟨hdr, d⟩

/-- One iteration of the `print_concatenated_ucode` loop: construct an
`IntelUCode` at `data[off:]`; on success report the advance
`len(ucode.data)`, on `ChksumError`/`ValueError` report `none`. -/
def walkStep (data : List Nat) (off : Nat) : Option Nat :=
  match IntelUCode_init (data.drop off) with
  | .error _ => none
  | .ok u => some u.data.length

/-- The `print_concatenated_ucode` loop with explicit fuel: returns
`some (number of blobs, final offset)` when the loop reaches its exit
(`break` on the first failed construction), `none` when the fuel runs out
first.  A step that advances by 0 (a valid blob with `TotalSize = 0`)
repeats the same state forever, so no fuel ever suffices for it. -/
def walkFuel (data : List Nat) : Nat → Nat → Option (Nat × Nat)
  | 0, _ => none
  | fuel + 1, off =>
    match walkStep data off with
    | none => some (0, off)
    | some adv => (walkFuel data fuel (off + adv)).map fun p => (p.1 + 1, p.2)

/-- `print_concatenated_ucode(data)` as a value: every accepting step
advances by at least 1 unless it advances by 0 and then loops forever, so
fuel `data.length + 1` returns `some` exactly when the Python loop
terminates. -/
def walkRun (data : List Nat) : Option (Nat × Nat) :=
  walkFuel data (data.length + 1) 0

/-- Left-to-right scan worker with structural fuel (any
`fuel ≥ hay.length + 1 - pos` behaves identically, see
`strFindAux_congr`). -/
def strFindAux (hay needle : List Nat) : Nat → Nat → Option Nat
  | 0, _ => none
  | fuel + 1, pos =>
    if pos + needle.length ≤ hay.length then
      if needle.isPrefixOf (hay.drop pos) then some pos
      else strFindAux hay needle fuel (pos + 1)
    else none

/-- `bytes.find(needle, pos)`: the least offset `o ≥ pos` at which
`needle` occurs in `haystack` (`none` when there is no such offset). -/
def strFind (hay needle : List Nat) (pos : Nat) : Option Nat :=
  strFindAux hay needle (hay.length + 1 - pos) pos

/-- The `find_all` generator body with explicit fuel: yield each found
offset, then resume the search at `pos + len(needle)`. -/
def findAllAux (hay needle : List Nat) : Nat → Nat → List Nat
  | 0, _ => []
  | fuel + 1, pos =>
    match strFind hay needle pos with
    | none => []
    | some o => o :: findAllAux hay needle fuel (o + needle.length)

/-- `find_all(haystack, needle)`, fully forced.  For a non-empty needle
every yield advances the cursor by `needle.length ≥ 1` and yields happen
at offsets `≤ hay.length - needle.length`, so fuel `hay.length + 1`
always reaches the generator's own exit. -/
def find_all (hay needle : List Nat) : List Nat :=
  findAllAux hay needle (hay.length + 1) 0

/-- `UCODE_FFS_GUID.bytes_le`: the 16-byte little-endian encoding of GUID
`197DB236-F856-4924-90F8-CDF12FB875F3`. -/
def UCODE_FFS_GUID : List Nat :=
  [0x36, 0xB2, 0x7D, 0x19, 0x56, 0xF8, 0x24, 0x49,
   0x90, 0xF8, 0xCD, 0xF1, 0x2F, 0xB8, 0x75, 0xF3]

/-- Overwrite `buf[s : s+l]` with 0xFF fill and copy `u` over its front:
`ffs.body[:] = bytes([0xff]*len(ffs.body)); ffs.body[:len(u)] = u`.
Meaningful when `u.length ≤ l` and `s + l ≤ buf.length`, which the caller
establishes. -/
def writeRegion (buf : List Nat) (s l : Nat) (u : List Nat) : List Nat :=
  buf.take s ++ u ++ List.replicate (l - u.length) 0xFF ++ buf.drop (s + l)

/-- How a run of the `__main__` program can abort with no output. -/
inductive MainErr where
  | ucodeInvalid
  | hang
  | crash
  | assertLen
  | noChange
  deriving Repr, DecidableEq

/-- The `__main__` scan-and-patch loop (`for offset in find_all(...)`)
with explicit fuel.  At each hit: construct `FFS(rom[offset:])`;
`ChksumError` skips the hit; `ValueError` (fewer than 24 bytes left) is
uncaught and crashes the run.  On success the diagnostic
`print_concatenated_ucode(ffs.body)` runs (it can hang forever), the body
is erased to 0xFF and the new ucode copied over its front — unless the
new ucode is longer than the body, in which case the memoryview slice
assignment raises an uncaught ValueError (crash).  The generator is
re-polled against the *mutated* buffer.  Returns the final buffer and the
list of `(start, length)` body regions patched, in order. -/
def patchLoopFuel (u : List Nat) :
    Nat → List Nat → Nat → Except MainErr (List Nat × List (Nat × Nat))
  | 0, _, _ => .error .crash
  | fuel + 1, buf, pos =>
    match strFind buf UCODE_FFS_GUID pos with
    | none => .ok (buf, [])
    | some o =>
      match FFS_init (buf.drop o) with
      | .error .valueErr => .error .crash
      | .error .chksum => patchLoopFuel u fuel buf (o + 16)
      | .ok r =>
        if walkRun r.body = none then .error .hang
        else if r.body.length < u.length then .error .crash
        else
          (patchLoopFuel u fuel (writeRegion buf (o + 24) r.body.length u)
              (o + 16)).map
            fun p => (p.1, (o + 24, r.body.length) :: p.2)

/-- The whole patch pass over an image.  Each iteration moves the resume
cursor from `pos` to `o + 16 ≥ pos + 16` and a yielded `o` satisfies
`o + 16 ≤ buf.length`, so fuel `buf.length + 2` always reaches the
loop's natural exit. -/
def patchPass (rom u : List Nat) : Except MainErr (List Nat × List (Nat × Nat)) :=
  patchLoopFuel u (rom.length + 2) rom 0

/-- The `__main__` program on in-memory buffers: validate the replacement
ucode (fatal `ChksumError`/`ValueError` if invalid), run the diagnostic
walk over it (which can hang), run the patch loop, then the two asserts:
the image length must be unchanged and at least one byte must differ from
the original, else nothing is written. -/
def mainRun (rom u : List Nat) : Except MainErr (List Nat) :=
  match IntelUCode_init u with
  | .error _ => .error .ucodeInvalid
  | .ok _ =>
    match walkRun u with
    | none => .error .hang
    | some _ =>
      match patchPass rom u with
      | .error e => .error e
      | .ok (out, _) =>
        if out.length ≠ rom.length then .error .assertLen
        else if out = rom then .error .noChange
        else .ok out

/-! ### Concrete buffers used in counterexamples and instances -/

/-- A 48-byte update blob whose header declares `TotalSize = 100` (beyond
the buffer) yet whose first 48 bytes word-sum to zero: the `Checksum`
field word compensates the `TotalSize` word. -/
def cex3 : List Nat :=
  List.replicate 16 0 ++ [0x9C, 0xFF, 0xFF, 0xFF] ++ List.replicate 12 0 ++
    [100, 0, 0, 0] ++ List.replicate 12 0

/-- A self-contained valid 48-byte update blob with `TotalSize = 48`. -/
def blob48 : List Nat :=
  List.replicate 16 0 ++ [0xD0, 0xFF, 0xFF, 0xFF] ++ List.replicate 12 0 ++
    [48, 0, 0, 0] ++ List.replicate 12 0

/-- A self-contained valid 52-byte update blob with `TotalSize = 52`. -/
def blob52 : List Nat :=
  List.replicate 16 0 ++ [0xCC, 0xFF, 0xFF, 0xFF] ++ List.replicate 12 0 ++
    [52, 0, 0, 0] ++ List.replicate 16 0

/-- Three valid concatenated update blobs followed by garbage. -/
def threeBlobs : List Nat := blob48 ++ blob52 ++ blob48 ++ [1, 2, 3]

/-- A 30-byte image holding one container record whose header checksum is
valid but whose declared `Size` (100) exceeds the 30 bytes available. -/
def cex9 : List Nat :=
  UCODE_FFS_GUID ++ [0xCE, 0, 0, 0, 100, 0, 0, 0] ++ List.replicate 6 0

/-- A 68-byte image holding one valid container record at offset 0 whose
header tail bytes 20..23 equal the first four GUID bytes: patching it with
`cex1u` plants the remaining GUID bytes and a second valid header at
offset 20, whose own patch then overwrites part of the first body. -/
def cex1img : List Nat :=
  UCODE_FFS_GUID ++ [0xCD, 0, 0, 0, 0x36, 0xB2, 0x7D, 0x19] ++
    List.replicate 44 0

/-- The output of patching `cex9` with the single byte `0xAB`: the
original 30 bytes with the 6-byte clamped body replaced by
`0xAB` + five `0xFF` fill bytes. -/
def cex9out : List Nat :=
  [0x36, 0xB2, 0x7D, 0x19, 0x56, 0xF8, 0x24, 0x49, 0x90, 0xF8, 0xCD, 0xF1,
   0x2F, 0xB8, 0x75, 0xF3, 0xCE, 0, 0, 0, 100, 0, 0, 0, 0xAB, 0xFF, 0xFF,
   0xFF, 0xFF, 0xFF]

/-- The 21-byte replacement content used with `cex1img`. -/
def cex1u : List Nat :=
  [0x56, 0xF8, 0x24, 0x49, 0x90, 0xF8, 0xCD, 0xF1, 0x2F, 0xB8, 0x75, 0xF3,
   0x02, 0, 0, 0, 0x30, 0, 0, 0, 0]

/-! ## Helper lemmas -/

theorem wordsOfAux_nil (w fuel : Nat) : wordsOfAux w fuel [] = [] := by
  cases fuel with
  | zero => rfl
  | succ n =>
    have h : w = 0 ∨ ([] : List Nat).length < w := by
      simp only [List.length_nil]
      omega
    simp only [wordsOfAux]
    rw [if_pos h]

theorem wordsOfAux_congr (w : Nat) :
    ∀ (fuel fuel' : Nat) (data : List Nat), data.length ≤ fuel →
      data.length ≤ fuel' → wordsOfAux w fuel data = wordsOfAux w fuel' data
  | 0, fuel', data, h, _ => by
    have : data = [] := List.eq_nil_of_length_eq_zero (by omega)
    subst this
    rw [wordsOfAux_nil, wordsOfAux_nil]
  | fuel + 1, 0, data, _, h' => by
    have : data = [] := List.eq_nil_of_length_eq_zero (by omega)
    subst this
    rw [wordsOfAux_nil, wordsOfAux_nil]
  | fuel + 1, fuel' + 1, data, h, h' => by
    simp only [wordsOfAux]
    by_cases hc : w = 0 ∨ data.length < w
    · rw [if_pos hc, if_pos hc]
    · rw [if_neg hc, if_neg hc]
      have hw : 0 < w := by
        rcases Nat.eq_zero_or_pos w with h0 | h0
        · exact absurd (Or.inl h0) hc
        · exact h0
      have hlen : w ≤ data.length := by
        rcases Nat.lt_or_ge data.length w with h0 | h0
        · exact absurd (Or.inr h0) hc
        · exact h0
      have hd : (data.drop w).length ≤ fuel := by
        rw [List.length_drop]; omega
      have hd' : (data.drop w).length ≤ fuel' := by
        rw [List.length_drop]; omega
      rw [wordsOfAux_congr w fuel fuel' (data.drop w) hd hd']

theorem wordsOf_nil (w : Nat) : wordsOf w [] = [] := rfl

theorem wordsOf_cons (w : Nat) (data : List Nat) (hw : 0 < w)
    (hl : w ≤ data.length) :
    wordsOf w data = data.take w :: wordsOf w (data.drop w) := by
  unfold wordsOf
  obtain ⟨n, hn⟩ : ∃ n, data.length = n + 1 := ⟨data.length - 1, by omega⟩
  rw [hn]
  simp only [wordsOfAux]
  have hc : ¬ (w = 0 ∨ data.length < w) := by omega
  rw [if_neg hc]
  have hd : (data.drop w).length ≤ n := by
    rw [List.length_drop]; omega
  rw [wordsOfAux_congr w n (data.drop w).length (data.drop w) hd (le_refl _)]

theorem wordsOf_short (w : Nat) (data : List Nat) (h : w = 0 ∨ data.length < w) :
    wordsOf w data = [] := by
  unfold wordsOf
  cases hd : data.length with
  | zero =>
    have : data = [] := List.eq_nil_of_length_eq_zero hd
    subst this
    rfl
  | succ n =>
    simp only [wordsOfAux]
    rw [if_pos h]

theorem wordsOf_one (l : List Nat) : wordsOf 1 l = l.map (fun b => [b]) := by
  induction l with
  | nil => exact wordsOf_nil 1
  | cons b t ih =>
    rw [wordsOf_cons 1 (b :: t) (by omega) (by simp)]
    simpa using ih

theorem array_sum_one (l : List Nat) : array_sum l 1 = l.sum % 256 := by
  unfold array_sum
  rw [wordsOf_one, List.map_map]
  have : (leVal ∘ fun b => [b]) = id := by
    funext b
    simp [leVal]
  rw [this]
  simp

theorem getD_lt_256 (d : List Nat) (hb : ∀ b ∈ d, b < 256) (i : Nat) :
    d.getD i 0 < 256 := by
  by_cases h : i < d.length
  · rw [List.getD_eq_getElem d 0 h]
    exact hb _ (List.getElem_mem h)
  · rw [List.getD_eq_default d 0 (by omega)]
    omega

/-! ## C6 -/

/-- C6: the Update-Chain Walker does **not** terminate on every finite
buffer.  On the 48-byte all-zero buffer the decoded header has
`TotalSize = 0`, `data[:0]` is empty, the empty 32-bit-word sum wraps to
zero, so the blob is accepted and the cursor advances by `len(ucode.data)
= 0`: the loop revisits the same offset forever.  No amount of fuel makes
the embedded loop reach its exit. -/
theorem walker_diverges_on_zero_buffer :
    ∀ fuel, walkFuel (List.replicate 48 0) fuel 0 = none := by
  intro fuel
  induction fuel with
  | zero => rfl
  | succ n ih =>
    have hstep : walkStep (List.replicate 48 0) 0 = some 0 := by decide
    simp only [walkFuel, hstep, ih, Option.map_none']

/-! ## C10 -/

/-- C10 counterexample: `array_sum` called on a buffer whose length is not
a multiple of `sizeof(T)` does not fail — it returns the sum computed
from the truncated input (here `[1, 2, 3]` as `u16` gives the same value
as `[1, 2]`). -/
theorem array_sum_unaligned_no_error :
    array_sum [1, 2, 3] 2 = array_sum [1, 2] 2 ∧
      ([1, 2, 3] : List Nat).length % 2 = 1 ∧ array_sum [1, 2, 3] 2 = 513 := by
  decide

theorem wordsOf_take_mul (w : Nat) :
    ∀ (q : Nat) (data : List Nat), w * q ≤ data.length →
      data.length < w * q + w → wordsOf w data = wordsOf w (data.take (w * q))
  | 0, data, _, h2 => by
    have hlt : data.length < w := by omega
    rw [Nat.mul_zero, List.take_zero, wordsOf_nil,
      wordsOf_short w data (Or.inr hlt)]
  | q + 1, data, h1, h2 => by
    have hw : 0 < w := by
      rcases Nat.eq_zero_or_pos w with h | h
      · subst h; omega
      · exact h
    rw [Nat.mul_succ] at h1 h2
    have hge : w ≤ data.length := by
      have := Nat.zero_le (w * q)
      omega
    have htlen : (data.take (w * q + w)).length = w * q + w := by
      rw [List.length_take]
      omega
    rw [wordsOf_cons w data hw hge, Nat.mul_succ,
      wordsOf_cons w (data.take (w * q + w)) hw (by omega)]
    refine congrArg₂ _ ?_ ?_
    · rw [List.take_take]
      congr 1
      omega
    · rw [List.drop_take]
      have harith : w * q + w - w = w * q := by omega
      rw [harith]
      have hd1 : w * q ≤ (data.drop w).length := by
        rw [List.length_drop]; omega
      have hd2 : (data.drop w).length < w * q + w := by
        rw [List.length_drop]; omega
      exact wordsOf_take_mul w q (data.drop w) hd1 hd2

/-- C10 (amended): on a buffer whose length is not a multiple of
`sizeof(T)`, `array_sum` silently ignores the trailing `len % sizeof(T)`
bytes: it always equals the sum over the first `⌊len/sizeof⌋` complete
words. -/
theorem array_sum_truncates (w : Nat) (data : List Nat) :
    array_sum data w = array_sum (data.take (w * (data.length / w))) w := by
  rcases Nat.eq_zero_or_pos w with hw | hw
  · subst hw
    unfold array_sum
    rw [wordsOf_short 0 _ (Or.inl rfl), wordsOf_short 0 _ (Or.inl rfl)]
  · have hdm := Nat.div_add_mod data.length w
    have hml := Nat.mod_lt data.length hw
    unfold array_sum
    rw [← wordsOf_take_mul w (data.length / w) data (by omega) (by omega)]

/-! ## C2 -/

theorem FFS_init_chksum_iff (data : List Nat) (hlen : 24 ≤ data.length) :
    FFS_init data = .error .chksum ↔ ffsChk data ≠ 0 := by
  rw [FFS_init, if_neg (by omega)]
  split_ifs with h
  · simp [h]
  · simp [h]

theorem ffsChk_spec (data : List Nat) (hb : ∀ b ∈ data, b < 256) :
    ffsChk data =
      (((data.take 24).sum : Int) - data.getD 17 0 - data.getD 23 0) % 256 := by
  unfold ffsChk
  rw [array_sum_one]
  have hcd : (decodeFFS data).ChkData = data.getD 17 0 := rfl
  have hst : (decodeFFS data).State = data.getD 23 0 := by
    show rd32 data 20 / 16777216 % 256 = data.getD 23 0
    unfold rd32
    simp only [show 20 + 1 = 21 from rfl, show 20 + 2 = 22 from rfl,
      show 20 + 3 = 23 from rfl]
    have h20 := getD_lt_256 data hb 20
    have h21 := getD_lt_256 data hb 21
    have h22 := getD_lt_256 data hb 22
    have h23 := getD_lt_256 data hb 23
    omega
  rw [hcd, hst]
  have hcast : (((data.take 24).sum % 256 : Nat) : Int) =
      ((data.take 24).sum : Int) % 256 := by
    push_cast
    rfl
  rw [hcast]
  omega

/-- C2: for a buffer of at least 24 bytes, `FFS(data)` raises
`ChksumError` exactly when the sum of the 24 header bytes minus the
data-checksum byte (byte 17) and the state byte (byte 23), taken modulo
256, is nonzero; when that value is zero the construction succeeds. -/
theorem ffs_raises_iff_chksum (data : List Nat) (hlen : 24 ≤ data.length)
    (hb : ∀ b ∈ data, b < 256) :
    (FFS_init data = .error .chksum ↔
      ¬ ((((data.take 24).sum : Int) - data.getD 17 0 - data.getD 23 0) % 256
        = 0)) ∧
    (((((data.take 24).sum : Int) - data.getD 17 0 - data.getD 23 0) % 256
        = 0) → ∃ r, FFS_init data = .ok r) := by
  have hkey := (ffsChk_spec data hb).symm
  constructor
  · rw [FFS_init_chksum_iff data hlen, hkey]
  · intro h0
    rw [hkey] at h0
    refine ⟨⟨decodeFFS data, (data.take (decodeFFS data).Size).drop 24⟩, ?_⟩
    rw [FFS_init, if_neg (by omega), if_neg (by simpa using h0)]

/-- Witness for C2 at a concrete input: the all-zero 24-byte buffer has a
zero checksum, so construction succeeds and does not raise. -/
theorem ffs_raises_iff_chksum_witness :
    (FFS_init (List.replicate 24 0) = .error .chksum ↔
      ¬ (((((List.replicate 24 0 : List Nat).take 24).sum : Int) -
          (List.replicate 24 0 : List Nat).getD 17 0 -
          (List.replicate 24 0 : List Nat).getD 23 0) % 256 = 0)) ∧
    ((((((List.replicate 24 0 : List Nat).take 24).sum : Int) -
        (List.replicate 24 0 : List Nat).getD 17 0 -
        (List.replicate 24 0 : List Nat).getD 23 0) % 256 = 0) →
      ∃ r, FFS_init (List.replicate 24 0) = .ok r) :=
  ffs_raises_iff_chksum (List.replicate 24 0) (by decide) (by decide)

/-! ## C8 -/

theorem wordsOf_eq_range (w : Nat) (hw : 0 < w) :
    ∀ (k : Nat) (data : List Nat), data.length = w * k →
      wordsOf w data = (List.range k).map fun i => (data.drop (w * i)).take w
  | 0, data, hl => by
    have : data = [] := List.eq_nil_of_length_eq_zero (by omega)
    subst this
    simp [wordsOf_nil]
  | k + 1, data, hl => by
    rw [Nat.mul_succ] at hl
    have hge : w ≤ data.length := by
      rw [hl]
      exact Nat.le_add_left w (w * k)
    rw [wordsOf_cons w data hw hge, List.range_succ_eq_map]
    simp only [List.map_cons, List.map_map]
    refine congrArg₂ _ ?_ ?_
    · simp
    · have hdl : (data.drop w).length = w * k := by
        rw [List.length_drop]
        omega
      rw [wordsOf_eq_range w hw k (data.drop w) hdl]
      apply List.map_congr_left
      intro i _
      simp only [Function.comp_apply]
      rw [List.drop_drop, Nat.mul_succ]
      ring_nf

/-- C8: for a buffer whose length is `sizeof(T) * k`, `array_sum`
returns the sum of the `k` consecutive little-endian `T`-values of the
buffer, wrapped to `T`'s bit width. -/
theorem array_sum_is_le_word_sum (data : List Nat) (w k : Nat) (hw : 0 < w)
    (hl : data.length = w * k) :
    array_sum data w =
      (((List.range k).map fun i => leVal ((data.drop (w * i)).take w)).sum)
        % 2 ^ (8 * w) := by
  unfold array_sum
  rw [wordsOf_eq_range w hw k data hl, List.map_map]
  rfl

/-- Witness for C8 at a concrete input: `[1, 2, 3, 4]` as two 16-bit
little-endian words. -/
theorem array_sum_is_le_word_sum_witness :
    array_sum [1, 2, 3, 4] 2 =
      (((List.range 2).map
          fun i => leVal ((([1, 2, 3, 4] : List Nat).drop (2 * i)).take 2)).sum)
        % 2 ^ (8 * 2) :=
  array_sum_is_le_word_sum [1, 2, 3, 4] 2 2 (by decide) (by decide)

/-! ## C5 -/

/-- Field bounds under which an `EfiFFSHeader` value corresponds to a
ctypes struct state: each field fits its declared bit width. -/
def WFFFS (h : EfiFFSHeader) : Prop :=
  h.GUID.length = 16 ∧ (∀ b ∈ h.GUID, b < 256) ∧ h.ChkHdr < 256 ∧
    h.ChkData < 256 ∧ h.Typ < 256 ∧ h.Attributes < 256 ∧
    h.Size < 16777216 ∧ h.State < 256

instance (h : EfiFFSHeader) : Decidable (WFFFS h) := by
  unfold WFFFS
  infer_instance

theorem map_mod_id (l : List Nat) (hb : ∀ b ∈ l, b < 256) :
    l.map (· % 256) = l := by
  conv_rhs => rw [← List.map_id l]
  apply List.map_congr_left
  intro a ha
  simp [Nat.mod_eq_of_lt (hb a ha)]

theorem getD_drop_cons (d : List Nat) (n : Nat) (hn : n < d.length) :
    d.drop n = d.getD n 0 :: d.drop (n + 1) := by
  rw [List.getD_eq_getElem d 0 hn]
  exact List.drop_eq_getElem_cons hn

theorem ffs_encode_decode (d : List Nat) (hlen : d.length = 24)
    (hb : ∀ b ∈ d, b < 256) : encodeFFS (decodeFFS d) = d := by
  have hbb := getD_lt_256 d hb
  have h16 := hbb 16
  have h17 := hbb 17
  have h18 := hbb 18
  have h19 := hbb 19
  have h20 := hbb 20
  have h21 := hbb 21
  have h22 := hbb 22
  have h23 := hbb 23
  have hsplit : d = d.take 16 ++
      [d.getD 16 0, d.getD 17 0, d.getD 18 0, d.getD 19 0, d.getD 20 0,
       d.getD 21 0, d.getD 22 0, d.getD 23 0] := by
    conv_lhs => rw [← List.take_append_drop 16 d]
    congr 1
    rw [getD_drop_cons d 16 (by omega), getD_drop_cons d 17 (by omega),
      getD_drop_cons d 18 (by omega), getD_drop_cons d 19 (by omega),
      getD_drop_cons d 20 (by omega), getD_drop_cons d 21 (by omega),
      getD_drop_cons d 22 (by omega), getD_drop_cons d 23 (by omega),
      List.drop_eq_nil_of_le (by omega)]
  conv_rhs => rw [hsplit]
  unfold encodeFFS
  rw [List.append_assoc]
  have hguid : (decodeFFS d).GUID.map (· % 256) = d.take 16 :=
    map_mod_id _ (fun a ha => hb a (List.take_subset 16 d ha))
  rw [hguid]
  congr 1
  simp only [decodeFFS, le4, rd32, show 20 + 1 = 21 from rfl,
    show 20 + 2 = 22 from rfl, show 20 + 3 = 23 from rfl, List.cons_append,
    List.nil_append, List.cons.injEq, and_true]
  repeat' apply And.intro
  all_goals omega

theorem ffs_decode_encode (h : EfiFFSHeader) (hwf : WFFFS h) :
    decodeFFS (encodeFFS h) = h := by
  obtain ⟨hg1, hg2, h1, h2, h3, h4, h5, h6⟩ := hwf
  have hE : encodeFFS h = h.GUID.map (· % 256) ++
      [h.ChkHdr % 256, h.ChkData % 256, h.Typ % 256, h.Attributes % 256,
       (h.Size % 16777216 + 16777216 * (h.State % 256)) % 256,
       (h.Size % 16777216 + 16777216 * (h.State % 256)) / 256 % 256,
       (h.Size % 16777216 + 16777216 * (h.State % 256)) / 65536 % 256,
       (h.Size % 16777216 + 16777216 * (h.State % 256)) / 16777216 % 256] := by
    simp only [encodeFFS, le4, List.append_assoc, List.cons_append,
      List.nil_append]
  have hglen : (h.GUID.map (· % 256)).length = 16 := by
    rw [List.length_map, hg1]
  have htail : ∀ (k : Nat) (l' : List Nat),
      (h.GUID.map (· % 256) ++ l').getD (16 + k) 0 = l'.getD k 0 := by
    intro k l'
    rw [List.getD_append_right _ _ _ _ (by omega), hglen]
    congr 1
    omega
  ext : 1
  · show (encodeFFS h).take 16 = h.GUID
    rw [hE, ← hglen, List.take_left, map_mod_id _ hg2]
  · show (encodeFFS h).getD 16 0 = h.ChkHdr
    rw [hE, show (16 : Nat) = 16 + 0 from rfl, htail]
    simp only [List.getD_cons_zero]
    omega
  · show (encodeFFS h).getD 17 0 = h.ChkData
    rw [hE, show (17 : Nat) = 16 + 1 from rfl, htail]
    simp only [List.getD_cons_succ, List.getD_cons_zero]
    omega
  · show (encodeFFS h).getD 18 0 = h.Typ
    rw [hE, show (18 : Nat) = 16 + 2 from rfl, htail]
    simp only [List.getD_cons_succ, List.getD_cons_zero]
    omega
  · show (encodeFFS h).getD 19 0 = h.Attributes
    rw [hE, show (19 : Nat) = 16 + 3 from rfl, htail]
    simp only [List.getD_cons_succ, List.getD_cons_zero]
    omega
  · show rd32 (encodeFFS h) 20 % 16777216 = h.Size
    unfold rd32
    rw [hE, show (20 : Nat) = 16 + 4 from rfl, htail,
      show 16 + 4 + 1 = 16 + 5 from rfl, htail,
      show 16 + 4 + 2 = 16 + 6 from rfl, htail,
      show 16 + 4 + 3 = 16 + 7 from rfl, htail]
    simp only [List.getD_cons_succ, List.getD_cons_zero]
    omega
  · show rd32 (encodeFFS h) 20 / 16777216 % 256 = h.State
    unfold rd32
    rw [hE, show (20 : Nat) = 16 + 4 from rfl, htail,
      show 16 + 4 + 1 = 16 + 5 from rfl, htail,
      show 16 + 4 + 2 = 16 + 6 from rfl, htail,
      show 16 + 4 + 3 = 16 + 7 from rfl, htail]
    simp only [List.getD_cons_succ, List.getD_cons_zero]
    omega

/-- Field bounds under which an `IntelUcodeHeader` value corresponds to a
ctypes struct state: each field fits its declared bit width. -/
def WFUcode (h : IntelUcodeHeader) : Prop :=
  h.HeaderType < 4294967296 ∧ h.UpdateRevision < 4294967296 ∧ h.Year < 65536 ∧ h.Day < 256 ∧
    h.Month < 256 ∧ h.ProcessorSignature < 4294967296 ∧ h.Checksum < 4294967296 ∧ h.LoaderRevision < 4294967296 ∧ h.PlatformIDs < 4294967296 ∧
    h.DataSize < 4294967296 ∧ h.TotalSize < 4294967296 ∧ h.MetadataSize < 4294967296 ∧ h.UpdateRevisionMin < 4294967296 ∧ h.Reserved < 4294967296

instance (h : IntelUcodeHeader) : Decidable (WFUcode h) := by
  unfold WFUcode
  infer_instance

theorem ucode_encode_decode (d : List Nat) (hlen : d.length = 48)
    (hb : ∀ b ∈ d, b < 256) : encodeUcode (decodeUcode d) = d := by
  have hbb := getD_lt_256 d hb
  have h0 := hbb 0
  have h1 := hbb 1
  have h2 := hbb 2
  have h3 := hbb 3
  have h4 := hbb 4
  have h5 := hbb 5
  have h6 := hbb 6
  have h7 := hbb 7
  have h8 := hbb 8
  have h9 := hbb 9
  have h10 := hbb 10
  have h11 := hbb 11
  have h12 := hbb 12
  have h13 := hbb 13
  have h14 := hbb 14
  have h15 := hbb 15
  have h16 := hbb 16
  have h17 := hbb 17
  have h18 := hbb 18
  have h19 := hbb 19
  have h20 := hbb 20
  have h21 := hbb 21
  have h22 := hbb 22
  have h23 := hbb 23
  have h24 := hbb 24
  have h25 := hbb 25
  have h26 := hbb 26
  have h27 := hbb 27
  have h28 := hbb 28
  have h29 := hbb 29
  have h30 := hbb 30
  have h31 := hbb 31
  have h32 := hbb 32
  have h33 := hbb 33
  have h34 := hbb 34
  have h35 := hbb 35
  have h36 := hbb 36
  have h37 := hbb 37
  have h38 := hbb 38
  have h39 := hbb 39
  have h40 := hbb 40
  have h41 := hbb 41
  have h42 := hbb 42
  have h43 := hbb 43
  have h44 := hbb 44
  have h45 := hbb 45
  have h46 := hbb 46
  have h47 := hbb 47
  have hsplit : d = [d.getD 0 0, d.getD 1 0, d.getD 2 0, d.getD 3 0, d.getD 4 0, d.getD 5 0, d.getD 6 0, d.getD 7 0, d.getD 8 0, d.getD 9 0, d.getD 10 0, d.getD 11 0, d.getD 12 0, d.getD 13 0, d.getD 14 0, d.getD 15 0, d.getD 16 0, d.getD 17 0, d.getD 18 0, d.getD 19 0, d.getD 20 0, d.getD 21 0, d.getD 22 0, d.getD 23 0, d.getD 24 0, d.getD 25 0, d.getD 26 0, d.getD 27 0, d.getD 28 0, d.getD 29 0, d.getD 30 0, d.getD 31 0, d.getD 32 0, d.getD 33 0, d.getD 34 0, d.getD 35 0, d.getD 36 0, d.getD 37 0, d.getD 38 0, d.getD 39 0, d.getD 40 0, d.getD 41 0, d.getD 42 0, d.getD 43 0, d.getD 44 0, d.getD 45 0, d.getD 46 0, d.getD 47 0] := by
    conv_lhs => rw [← List.drop_zero d]
    rw [getD_drop_cons d 0 (by omega), getD_drop_cons d 1 (by omega), getD_drop_cons d 2 (by omega), getD_drop_cons d 3 (by omega), getD_drop_cons d 4 (by omega), getD_drop_cons d 5 (by omega), getD_drop_cons d 6 (by omega), getD_drop_cons d 7 (by omega), getD_drop_cons d 8 (by omega), getD_drop_cons d 9 (by omega), getD_drop_cons d 10 (by omega), getD_drop_cons d 11 (by omega), getD_drop_cons d 12 (by omega), getD_drop_cons d 13 (by omega), getD_drop_cons d 14 (by omega), getD_drop_cons d 15 (by omega), getD_drop_cons d 16 (by omega), getD_drop_cons d 17 (by omega), getD_drop_cons d 18 (by omega), getD_drop_cons d 19 (by omega), getD_drop_cons d 20 (by omega), getD_drop_cons d 21 (by omega), getD_drop_cons d 22 (by omega), getD_drop_cons d 23 (by omega), getD_drop_cons d 24 (by omega), getD_drop_cons d 25 (by omega), getD_drop_cons d 26 (by omega), getD_drop_cons d 27 (by omega), getD_drop_cons d 28 (by omega), getD_drop_cons d 29 (by omega), getD_drop_cons d 30 (by omega), getD_drop_cons d 31 (by omega), getD_drop_cons d 32 (by omega), getD_drop_cons d 33 (by omega), getD_drop_cons d 34 (by omega), getD_drop_cons d 35 (by omega), getD_drop_cons d 36 (by omega), getD_drop_cons d 37 (by omega), getD_drop_cons d 38 (by omega), getD_drop_cons d 39 (by omega), getD_drop_cons d 40 (by omega), getD_drop_cons d 41 (by omega), getD_drop_cons d 42 (by omega), getD_drop_cons d 43 (by omega), getD_drop_cons d 44 (by omega), getD_drop_cons d 45 (by omega), getD_drop_cons d 46 (by omega), getD_drop_cons d 47 (by omega),
      List.drop_eq_nil_of_le (by omega)]
  conv_rhs => rw [hsplit]
  simp only [encodeUcode, decodeUcode, le4, le2, rd32, rd16,
    show 0 + 1 = 1 from rfl, show 0 + 2 = 2 from rfl, show 0 + 3 = 3 from rfl, show 4 + 1 = 5 from rfl, show 4 + 2 = 6 from rfl, show 4 + 3 = 7 from rfl, show 8 + 1 = 9 from rfl, show 12 + 1 = 13 from rfl, show 12 + 2 = 14 from rfl, show 12 + 3 = 15 from rfl, show 16 + 1 = 17 from rfl, show 16 + 2 = 18 from rfl, show 16 + 3 = 19 from rfl, show 20 + 1 = 21 from rfl, show 20 + 2 = 22 from rfl, show 20 + 3 = 23 from rfl, show 24 + 1 = 25 from rfl, show 24 + 2 = 26 from rfl, show 24 + 3 = 27 from rfl, show 28 + 1 = 29 from rfl, show 28 + 2 = 30 from rfl, show 28 + 3 = 31 from rfl, show 32 + 1 = 33 from rfl, show 32 + 2 = 34 from rfl, show 32 + 3 = 35 from rfl, show 36 + 1 = 37 from rfl, show 36 + 2 = 38 from rfl, show 36 + 3 = 39 from rfl, show 40 + 1 = 41 from rfl, show 40 + 2 = 42 from rfl, show 40 + 3 = 43 from rfl, show 44 + 1 = 45 from rfl, show 44 + 2 = 46 from rfl, show 44 + 3 = 47 from rfl,
    List.append_assoc, List.cons_append, List.nil_append, List.cons.injEq,
    and_true]
  repeat' apply And.intro
  all_goals omega

set_option maxHeartbeats 3200000 in
theorem ucode_decode_encode (h : IntelUcodeHeader) (hwf : WFUcode h) :
    decodeUcode (encodeUcode h) = h := by
  obtain ⟨hw0, hw1, hw2, hw3, hw4, hw5, hw6, hw7, hw8, hw9, hw10, hw11, hw12, hw13⟩ := hwf
  have hE : encodeUcode h = [
      h.HeaderType % 256, h.HeaderType / 256 % 256,
      h.HeaderType / 65536 % 256, h.HeaderType / 16777216 % 256,
      h.UpdateRevision % 256, h.UpdateRevision / 256 % 256,
      h.UpdateRevision / 65536 % 256, h.UpdateRevision / 16777216 % 256,
      h.Year % 256, h.Year / 256 % 256,
      h.Day % 256, h.Month % 256,
      h.ProcessorSignature % 256, h.ProcessorSignature / 256 % 256,
      h.ProcessorSignature / 65536 % 256, h.ProcessorSignature / 16777216 % 256,
      h.Checksum % 256, h.Checksum / 256 % 256,
      h.Checksum / 65536 % 256, h.Checksum / 16777216 % 256,
      h.LoaderRevision % 256, h.LoaderRevision / 256 % 256,
      h.LoaderRevision / 65536 % 256, h.LoaderRevision / 16777216 % 256,
      h.PlatformIDs % 256, h.PlatformIDs / 256 % 256,
      h.PlatformIDs / 65536 % 256, h.PlatformIDs / 16777216 % 256,
      h.DataSize % 256, h.DataSize / 256 % 256,
      h.DataSize / 65536 % 256, h.DataSize / 16777216 % 256,
      h.TotalSize % 256, h.TotalSize / 256 % 256,
      h.TotalSize / 65536 % 256, h.TotalSize / 16777216 % 256,
      h.MetadataSize % 256, h.MetadataSize / 256 % 256,
      h.MetadataSize / 65536 % 256, h.MetadataSize / 16777216 % 256,
      h.UpdateRevisionMin % 256, h.UpdateRevisionMin / 256 % 256,
      h.UpdateRevisionMin / 65536 % 256, h.UpdateRevisionMin / 16777216 % 256,
      h.Reserved % 256, h.Reserved / 256 % 256,
      h.Reserved / 65536 % 256, h.Reserved / 16777216 % 256] := by
    simp only [encodeUcode, le4, le2, List.append_assoc, List.cons_append,
      List.nil_append]
  ext : 1
  · show rd32 (encodeUcode h) 0 = h.HeaderType
    unfold rd32
    rw [hE]
    simp only [List.getD_cons_succ, List.getD_cons_zero]
    omega
  · show rd32 (encodeUcode h) 4 = h.UpdateRevision
    unfold rd32
    rw [hE]
    simp only [List.getD_cons_succ, List.getD_cons_zero]
    omega
  · show rd16 (encodeUcode h) 8 = h.Year
    unfold rd16
    rw [hE]
    simp only [List.getD_cons_succ, List.getD_cons_zero]
    omega
  · show (encodeUcode h).getD 10 0 = h.Day
    rw [hE]
    simp only [List.getD_cons_succ, List.getD_cons_zero]
    omega
  · show (encodeUcode h).getD 11 0 = h.Month
    rw [hE]
    simp only [List.getD_cons_succ, List.getD_cons_zero]
    omega
  · show rd32 (encodeUcode h) 12 = h.ProcessorSignature
    unfold rd32
    rw [hE]
    simp only [List.getD_cons_succ, List.getD_cons_zero]
    omega
  · show rd32 (encodeUcode h) 16 = h.Checksum
    unfold rd32
    rw [hE]
    simp only [List.getD_cons_succ, List.getD_cons_zero]
    omega
  · show rd32 (encodeUcode h) 20 = h.LoaderRevision
    unfold rd32
    rw [hE]
    simp only [List.getD_cons_succ, List.getD_cons_zero]
    omega
  · show rd32 (encodeUcode h) 24 = h.PlatformIDs
    unfold rd32
    rw [hE]
    simp only [List.getD_cons_succ, List.getD_cons_zero]
    omega
  · show rd32 (encodeUcode h) 28 = h.DataSize
    unfold rd32
    rw [hE]
    simp only [List.getD_cons_succ, List.getD_cons_zero]
    omega
  · show rd32 (encodeUcode h) 32 = h.TotalSize
    unfold rd32
    rw [hE]
    simp only [List.getD_cons_succ, List.getD_cons_zero]
    omega
  · show rd32 (encodeUcode h) 36 = h.MetadataSize
    unfold rd32
    rw [hE]
    simp only [List.getD_cons_succ, List.getD_cons_zero]
    omega
  · show rd32 (encodeUcode h) 40 = h.UpdateRevisionMin
    unfold rd32
    rw [hE]
    simp only [List.getD_cons_succ, List.getD_cons_zero]
    omega
  · show rd32 (encodeUcode h) 44 = h.Reserved
    unfold rd32
    rw [hE]
    simp only [List.getD_cons_succ, List.getD_cons_zero]
    omega

/-- C5: decoding a `ContainerRecordHeader` from any 24-byte buffer and an
`UpdateBlobHeader` from any 48-byte buffer never fails (both decoders are
total), encode-after-decode reproduces the buffer byte-for-byte, and
decode-after-encode is the identity on field-bounded header values —
including the packed 32-bit word whose low 24 bits are `Size` and high 8
bits are `State`. -/
theorem codec_round_trip :
    (∀ d : List Nat, d.length = 24 → (∀ b ∈ d, b < 256) →
      encodeFFS (decodeFFS d) = d) ∧
    (∀ h : EfiFFSHeader, WFFFS h → decodeFFS (encodeFFS h) = h) ∧
    (∀ d : List Nat, d.length = 48 → (∀ b ∈ d, b < 256) →
      encodeUcode (decodeUcode d) = d) ∧
    (∀ h : IntelUcodeHeader, WFUcode h → decodeUcode (encodeUcode h) = h) :=
  ⟨ffs_encode_decode, ffs_decode_encode, ucode_encode_decode,
    ucode_decode_encode⟩

/-- Witness for C5 at concrete inputs: a 24-byte buffer, an FFS header
value, a 48-byte buffer and a ucode header value all round-trip. -/
theorem codec_round_trip_witness :
    encodeFFS (decodeFFS (List.replicate 24 7)) = List.replicate 24 7 ∧
    decodeFFS (encodeFFS (⟨List.replicate 16 1, 2, 3, 4, 5, 6, 7⟩ :
        EfiFFSHeader)) = ⟨List.replicate 16 1, 2, 3, 4, 5, 6, 7⟩ ∧
    encodeUcode (decodeUcode (List.replicate 48 9)) = List.replicate 48 9 ∧
    decodeUcode (encodeUcode (⟨1, 2, 3, 4, 5, 6, 7, 8, 9, 10, 11, 12, 13, 14⟩ :
        IntelUcodeHeader)) = ⟨1, 2, 3, 4, 5, 6, 7, 8, 9, 10, 11, 12, 13, 14⟩ :=
  ⟨codec_round_trip.1 _ (by decide) (by decide),
   codec_round_trip.2.1 _ (by decide),
   codec_round_trip.2.2.1 _ (by decide) (by decide),
   codec_round_trip.2.2.2 _ (by decide)⟩

/-! ## C7 -/

/-- `needle` occurs in `hay` at offset `i`. -/
def occursAt (hay needle : List Nat) (i : Nat) : Prop := needle <+: hay.drop i

instance (hay needle : List Nat) (i : Nat) : Decidable (occursAt hay needle i) := by
  unfold occursAt
  infer_instance

theorem strFindAux_pos_big (hay needle : List Nat) (fuel pos : Nat)
    (h : hay.length < pos) : strFindAux hay needle fuel pos = none := by
  cases fuel with
  | zero => rfl
  | succ f =>
    simp only [strFindAux]
    rw [if_neg (by omega)]

theorem strFindAux_congr (hay needle : List Nat) :
    ∀ (fuel fuel' pos : Nat), hay.length + 1 - pos ≤ fuel →
      hay.length + 1 - pos ≤ fuel' →
      strFindAux hay needle fuel pos = strFindAux hay needle fuel' pos
  | 0, fuel', pos, h, _ => by
    rw [strFindAux_pos_big hay needle fuel' pos (by omega)]
    rfl
  | fuel + 1, 0, pos, _, h' => by
    rw [strFindAux_pos_big hay needle (fuel + 1) pos (by omega)]
    rfl
  | fuel + 1, fuel' + 1, pos, h, h' => by
    simp only [strFindAux]
    by_cases hc : pos + needle.length ≤ hay.length
    · rw [if_pos hc, if_pos hc]
      by_cases hp : needle.isPrefixOf (hay.drop pos)
      · rw [if_pos hp, if_pos hp]
      · rw [if_neg hp, if_neg hp]
        exact strFindAux_congr hay needle fuel fuel' (pos + 1) (by omega)
          (by omega)
    · rw [if_neg hc, if_neg hc]

theorem strFindAux_some (hay needle : List Nat) :
    ∀ (fuel pos o : Nat), strFindAux hay needle fuel pos = some o →
      pos ≤ o ∧ occursAt hay needle o ∧ o + needle.length ≤ hay.length ∧
        ∀ j, pos ≤ j → j < o → ¬ occursAt hay needle j
  | 0, pos, o, h => by cases h
  | fuel + 1, pos, o, h => by
    simp only [strFindAux] at h
    by_cases hc : pos + needle.length ≤ hay.length
    · rw [if_pos hc] at h
      by_cases hp : needle.isPrefixOf (hay.drop pos)
      · rw [if_pos hp] at h
        cases h
        exact ⟨le_refl _, List.isPrefixOf_iff_prefix.mp hp, hc,
          fun j h1 h2 _ => by omega⟩
      · rw [if_neg hp] at h
        obtain ⟨ih1, ih2, ih3, ih4⟩ :=
          strFindAux_some hay needle fuel (pos + 1) o h
        refine ⟨by omega, ih2, ih3, fun j hj1 hj2 hocc => ?_⟩
        rcases Nat.eq_or_lt_of_le hj1 with rfl | hlt
        · exact hp (List.isPrefixOf_iff_prefix.mpr hocc)
        · exact ih4 j hlt hj2 hocc
    · rw [if_neg hc] at h
      cases h

theorem strFindAux_none (hay needle : List Nat) (hne : needle ≠ []) :
    ∀ (fuel pos : Nat), hay.length + 1 - pos ≤ fuel →
      strFindAux hay needle fuel pos = none →
      ∀ j, pos ≤ j → ¬ occursAt hay needle j
  | 0, pos, hf, _, j, hj, hocc => by
    have hlen := hocc.length_le
    rw [List.length_drop] at hlen
    have : needle.length = 0 := by omega
    exact hne (List.eq_nil_of_length_eq_zero this)
  | fuel + 1, pos, hf, h, j, hj, hocc => by
    simp only [strFindAux] at h
    by_cases hc : pos + needle.length ≤ hay.length
    · rw [if_pos hc] at h
      by_cases hp : needle.isPrefixOf (hay.drop pos)
      · rw [if_pos hp] at h
        cases h
      · rw [if_neg hp] at h
        rcases Nat.eq_or_lt_of_le hj with rfl | hlt
        · exact hp (List.isPrefixOf_iff_prefix.mpr hocc)
        · exact strFindAux_none hay needle hne fuel (pos + 1) (by omega) h j
            hlt hocc
    · rw [if_neg hc] at h
      have hlen := hocc.length_le
      rw [List.length_drop] at hlen
      have hne' : 0 < needle.length := List.length_pos.mpr hne
      omega

theorem strFind_some (hay needle : List Nat) (pos o : Nat)
    (h : strFind hay needle pos = some o) :
    pos ≤ o ∧ occursAt hay needle o ∧ o + needle.length ≤ hay.length ∧
      ∀ j, pos ≤ j → j < o → ¬ occursAt hay needle j :=
  strFindAux_some hay needle _ pos o h

theorem strFind_none (hay needle : List Nat) (hne : needle ≠ []) (pos : Nat)
    (h : strFind hay needle pos = none) :
    ∀ j, pos ≤ j → ¬ occursAt hay needle j :=
  strFindAux_none hay needle hne _ pos (le_refl _) h

theorem findAllAux_sound (hay needle : List Nat) :
    ∀ (fuel pos y : Nat), y ∈ findAllAux hay needle fuel pos →
      pos ≤ y ∧ occursAt hay needle y ∧ y + needle.length ≤ hay.length
  | 0, pos, y, h => by cases h
  | fuel + 1, pos, y, h => by
    simp only [findAllAux] at h
    cases hs : strFind hay needle pos with
    | none =>
      rw [hs] at h
      cases h
    | some o =>
      rw [hs] at h
      obtain ⟨h1, h2, h3, _⟩ := strFind_some hay needle pos o hs
      rcases List.mem_cons.mp h with rfl | hmem
      · exact ⟨h1, h2, h3⟩
      · obtain ⟨ih1, ih2, ih3⟩ :=
          findAllAux_sound hay needle fuel (o + needle.length) y hmem
        exact ⟨by omega, ih2, ih3⟩

theorem findAllAux_pairwise (hay needle : List Nat) :
    ∀ (fuel pos : Nat),
      (findAllAux hay needle fuel pos).Pairwise
        (fun a b => a + needle.length ≤ b)
  | 0, pos => List.Pairwise.nil
  | fuel + 1, pos => by
    simp only [findAllAux]
    cases hs : strFind hay needle pos with
    | none => exact List.Pairwise.nil
    | some o =>
      refine List.Pairwise.cons ?_ (findAllAux_pairwise hay needle fuel _)
      intro y hy
      exact (findAllAux_sound hay needle fuel (o + needle.length) y hy).1

theorem findAllAux_complete (hay needle : List Nat) (hne : needle ≠ []) :
    ∀ (fuel pos o : Nat), hay.length + 1 - pos ≤ fuel →
      occursAt hay needle o → pos ≤ o →
      o ∈ findAllAux hay needle fuel pos ∨
        ∃ y ∈ findAllAux hay needle fuel pos, y < o ∧ o < y + needle.length
  | 0, pos, o, hf, hocc, hpos => by
    have hlen := hocc.length_le
    rw [List.length_drop] at hlen
    have hne' : 0 < needle.length := List.length_pos.mpr hne
    omega
  | fuel + 1, pos, o, hf, hocc, hpos => by
    simp only [findAllAux]
    cases hs : strFind hay needle pos with
    | none => exact absurd hocc (strFind_none hay needle hne pos hs o hpos)
    | some m =>
      obtain ⟨hm1, hm2, hm3, hm4⟩ := strFind_some hay needle pos m hs
      have hne' : 0 < needle.length := List.length_pos.mpr hne
      rcases Nat.lt_trichotomy o m with hlt | rfl | hgt
      · exact absurd hocc (hm4 o hpos hlt)
      · exact Or.inl (List.mem_cons_self _ _)
      · rcases Nat.lt_or_ge o (m + needle.length) with hin | hout
        · exact Or.inr ⟨m, List.mem_cons_self _ _, hgt, hin⟩
        · rcases findAllAux_complete hay needle hne fuel (m + needle.length) o
              (by omega) hocc hout with h | ⟨y, hy, hy1, hy2⟩
          · exact Or.inl (List.mem_cons_of_mem _ h)
          · exact Or.inr ⟨y, List.mem_cons_of_mem _ hy, hy1, hy2⟩

theorem pairwise_rel_of_mem (l : List Nat) (R : Nat → Nat → Prop)
    (h : l.Pairwise R) (a b : Nat) (ha : a ∈ l) (hb : b ∈ l) (hne : a ≠ b) :
    R a b ∨ R b a := by
  induction l with
  | nil => cases ha
  | cons x t ih =>
    rcases List.pairwise_cons.mp h with ⟨hx, ht⟩
    rcases List.mem_cons.mp ha with rfl | ha' <;>
      rcases List.mem_cons.mp hb with rfl | hb'
    · exact absurd rfl hne
    · exact Or.inl (hx b hb')
    · exact Or.inr (hx a ha')
    · exact ih ht ha' hb'

/-- C7: for a non-empty needle, `find_all` yields only true occurrence
offsets; the yielded offsets are pairwise at least `needle.length` apart
(hence strictly ascending, and the output is a finite list); every
occurrence is either yielded or starts strictly inside a yielded match;
and whenever the haystack's occurrences are exactly a set of offsets each
starting at or after the end of the previous one, `find_all` returns
exactly those offsets in ascending order. -/
theorem find_all_correct (hay needle : List Nat) (hne : needle ≠ []) :
    (∀ y ∈ find_all hay needle, occursAt hay needle y) ∧
    (find_all hay needle).Pairwise (fun a b => a + needle.length ≤ b) ∧
    (∀ o, occursAt hay needle o →
      o ∈ find_all hay needle ∨
        ∃ y ∈ find_all hay needle, y < o ∧ o < y + needle.length) ∧
    (∀ S : List Nat, S.Pairwise (fun a b => a + needle.length ≤ b) →
      (∀ o, occursAt hay needle o ↔ o ∈ S) → find_all hay needle = S) := by
  have hne' : 0 < needle.length := List.length_pos.mpr hne
  have hsound := fun y hy => findAllAux_sound hay needle (hay.length + 1) 0 y hy
  have hpw := findAllAux_pairwise hay needle (hay.length + 1) 0
  have hcomp := fun o hocc =>
    findAllAux_complete hay needle hne (hay.length + 1) 0 o (by omega) hocc
      (Nat.zero_le o)
  refine ⟨fun y hy => (hsound y hy).2.1, hpw, hcomp, ?_⟩
  intro S hSpw hSocc
  have hFlt : (find_all hay needle).Pairwise (· < ·) :=
    hpw.imp (fun hab => by omega)
  have hSlt : S.Pairwise (· < ·) := hSpw.imp (fun hab => by omega)
  have hmem : ∀ a, a ∈ find_all hay needle ↔ a ∈ S := by
    intro a
    constructor
    · intro ha
      exact (hSocc a).mp ((hsound a ha).2.1)
    · intro ha
      have hocc := (hSocc a).mpr ha
      rcases hcomp a hocc with h | ⟨y, hy, hy1, hy2⟩
      · exact h
      · have hyS : y ∈ S := (hSocc y).mp ((hsound y hy).2.1)
        have := pairwise_rel_of_mem S _ hSpw y a hyS ha (by omega)
        omega
  have hperm : (find_all hay needle).Perm S :=
    (List.perm_ext_iff_of_nodup (hFlt.imp Nat.ne_of_lt)
      (hSlt.imp Nat.ne_of_lt)).mpr hmem
  exact List.eq_of_perm_of_sorted hperm
    (List.Pairwise.imp Nat.le_of_lt hFlt) (List.Pairwise.imp Nat.le_of_lt hSlt)

/-- Witness for C7 at a concrete input: needle `[7, 8]` in haystack
`[1, 7, 8, 2, 7, 8]`; every yielded offset is a true occurrence. -/
theorem find_all_correct_witness :
    ([7, 8] : List Nat) ≠ [] ∧
      ∀ y ∈ find_all [1, 7, 8, 2, 7, 8] [7, 8],
        occursAt [1, 7, 8, 2, 7, 8] [7, 8] y :=
  ⟨by decide, (find_all_correct [1, 7, 8, 2, 7, 8] [7, 8] (by decide)).1⟩

/-! ## C3 -/

theorem IntelUCode_init_ok (data : List Nat) (u : UCodeRec)
    (h : IntelUCode_init data = .ok u) :
    48 ≤ data.length ∧ u.hdr = decodeUcode data ∧
      u.data = data.take (decodeUcode data).TotalSize ∧
      u.data.length = min (decodeUcode data).TotalSize data.length ∧
      array_sum u.data 4 = 0 := by
  simp only [IntelUCode_init] at h
  split_ifs at h with h1 h2
  injection h with h3
  subst h3
  simp only [not_not] at h2
  refine ⟨by omega, rfl, rfl, ?_, h2⟩
  simp [List.length_take]

theorem walkStep_le (data : List Nat) (off adv : Nat)
    (h : walkStep data off = some adv) : off + adv ≤ data.length := by
  unfold walkStep at h
  cases hi : IntelUCode_init (data.drop off) with
  | error e =>
    rw [hi] at h
    cases h
  | ok u =>
    rw [hi] at h
    injection h with h2
    subst h2
    obtain ⟨hlen, _, hdata, hlen2, _⟩ := IntelUCode_init_ok _ _ hi
    rw [List.length_drop] at hlen hlen2
    omega

theorem walkFuel_stops (data : List Nat) :
    ∀ (fuel off n fin : Nat), off ≤ data.length →
      walkFuel data fuel off = some (n, fin) →
      walkStep data fin = none ∧ off ≤ fin ∧ fin ≤ data.length
  | 0, off, n, fin, hoff, h => by cases h
  | fuel + 1, off, n, fin, hoff, h => by
    cases hs : walkStep data off with
    | none =>
      simp only [walkFuel, hs] at h
      injection h with h2
      injection h2 with h3 h4
      subst h4
      exact ⟨hs, le_refl _, hoff⟩
    | some adv =>
      simp only [walkFuel, hs] at h
      cases hw : walkFuel data fuel (off + adv) with
      | none =>
        rw [hw] at h
        cases h
      | some p =>
        rw [hw] at h
        simp only [Option.map_some'] at h
        injection h with h2
        injection h2 with h3 h4
        subst h4
        have hadv := walkStep_le data off adv hs
        obtain ⟨ih1, ih2, ih3⟩ :=
          walkFuel_stops data fuel (off + adv) p.1 p.2 (by omega) hw
        exact ⟨ih1, by omega, ih3⟩

set_option maxRecDepth 10000 in
/-- C3 counterexample: on the 48-byte buffer `cex3`, whose decoded header
declares `TotalSize = 100 > 48` remaining bytes, the Update-Chain Walker
*accepts* the blob (Python's `data[:TotalSize]` clamps, and the clamped
48 bytes word-sum to zero) and advances by the clamped length 48, not by
`TotalSize`: it reports 1 blob and 48 bytes consumed, where the claimed
walker would have rejected the blob and reported 0 blobs. -/
theorem walker_accepts_oversized_blob :
    walkRun cex3 = some (1, 48) ∧ (decodeUcode cex3).TotalSize = 100 ∧
      cex3.length = 48 := by
  decide

set_option maxRecDepth 10000 in
/-- C3 (amended): the walker accepts a blob at the cursor exactly when at
least 48 bytes remain and the 32-bit-word sum of the *clamped* slice
`data[off:][:TotalSize]` (length `min TotalSize remaining`) wraps to
zero; on acceptance it advances by that clamped length (`len(ucode.data)`,
which equals `TotalSize` only when `TotalSize` fits); when the loop
stops it has consumed at most the buffer length, stopping at the first
offset whose construction fails; and on a buffer holding three valid
concatenated blobs followed by garbage it reports exactly 3 blobs and a
consumed length of 148 = 48 + 52 + 48, the sum of their `TotalSize`
fields. -/
theorem walker_behaviour :
    (∀ (data : List Nat) (u : UCodeRec), IntelUCode_init data = .ok u →
      48 ≤ data.length ∧ u.data = data.take (decodeUcode data).TotalSize ∧
        u.data.length = min (decodeUcode data).TotalSize data.length ∧
        array_sum u.data 4 = 0) ∧
    (∀ (data : List Nat) (n fin : Nat), walkRun data = some (n, fin) →
      walkStep data fin = none ∧ fin ≤ data.length) ∧
    walkRun threeBlobs = some (3, 148) ∧
    (decodeUcode threeBlobs).TotalSize = 48 ∧
    (decodeUcode (threeBlobs.drop 48)).TotalSize = 52 ∧
    (decodeUcode (threeBlobs.drop 100)).TotalSize = 48 := by
  refine ⟨?_, ?_, by decide, by decide, by decide, by decide⟩
  · intro data u h
    obtain ⟨h1, _, h3, h4, h5⟩ := IntelUCode_init_ok data u h
    exact ⟨h1, h3, h4, h5⟩
  · intro data n fin h
    obtain ⟨h1, _, h3⟩ :=
      walkFuel_stops data (data.length + 1) 0 n fin (Nat.zero_le _) h
    exact ⟨h1, h3⟩

set_option maxRecDepth 10000 in
/-- Witness for C3 (amended) at a concrete input: the three-blob buffer's
walk stops at offset 148, which is within bounds and holds no further
valid blob. -/
theorem walker_behaviour_witness :
    walkRun threeBlobs = some (3, 148) ∧
      walkStep threeBlobs 148 = none ∧ 148 ≤ threeBlobs.length :=
  ⟨by decide, (walker_behaviour.2.1 threeBlobs 3 148 (by decide)).1,
    (walker_behaviour.2.1 threeBlobs 3 148 (by decide)).2⟩

/-! ## C9 -/

set_option maxRecDepth 10000 in
/-- C9 counterexample: `cex9` is a 30-byte image whose single container
record passes header-checksum validation while declaring `Size = 100`,
far beyond the 30 bytes available.  `FFS(...)` does not treat this as
malformed: construction succeeds (`data[24:100]` clamps to the 6 bytes
present) and the scan loop patches the record — the first body byte of
the output is the replacement byte 0xAB, not the original 0 — instead of
skipping it. -/
theorem oversized_record_not_skipped :
    (decodeFFS cex9).Size = 100 ∧ cex9.length = 30 ∧
      (FFS_init cex9).toOption.map (fun r => r.body.length) = some 6 ∧
      (patchPass cex9 [0xAB]).map
          (fun p => (p.2, p.1.getD 24 0, p.1.length)) =
        .ok ([(24, 6)], 0xAB, 30) ∧
      cex9.getD 24 0 = 0 := by
  decide

/-- C9 (amended): a container record whose declared `Size` exceeds the
bytes remaining is not detected as malformed: when `FFS(data)` succeeds,
its body is the clamped slice `data[24:Size]`, of length
`min Size len(data) - 24`, and the record is processed and patched like
any other (see the counterexample theorem for a patched instance). -/
theorem oversized_record_clamped (data : List Nat) (r : FFSRec)
    (h : FFS_init data = .ok r) :
    24 ≤ data.length ∧ r.hdr = decodeFFS data ∧
      r.body = (data.take (decodeFFS data).Size).drop 24 ∧
      r.body.length = min (decodeFFS data).Size data.length - 24 := by
  simp only [FFS_init] at h
  split_ifs at h with h1 h2
  injection h with h3
  subst h3
  refine ⟨by omega, rfl, rfl, ?_⟩
  simp [List.length_drop, List.length_take]

set_option maxRecDepth 10000 in
/-- Witness for C9 (amended) at the concrete input `cex9`: the clamped
body has length `min 100 30 - 24 = 6`. -/
theorem oversized_record_clamped_witness :
    24 ≤ cex9.length ∧
      (⟨decodeFFS cex9, (cex9.take (decodeFFS cex9).Size).drop 24⟩ :
          FFSRec).body.length = min (decodeFFS cex9).Size cex9.length - 24 :=
  ⟨(oversized_record_clamped cex9
      ⟨decodeFFS cex9, (cex9.take (decodeFFS cex9).Size).drop 24⟩
      (by decide)).1,
   (oversized_record_clamped cex9
      ⟨decodeFFS cex9, (cex9.take (decodeFFS cex9).Size).drop 24⟩
      (by decide)).2.2.2⟩

/-! ## Patch-loop lemmas (C1, C4) -/

theorem getD_take_lt (buf : List Nat) (n i : Nat) (h1 : i < n)
    (h2 : i < buf.length) : (buf.take n).getD i 0 = buf.getD i 0 := by
  rw [List.getD_eq_getElem _ _ (by simp only [List.length_take]; omega),
    List.getD_eq_getElem _ _ h2]
  exact List.getElem_take _

theorem getD_drop_add (buf : List Nat) (n i : Nat) :
    (buf.drop n).getD i 0 = buf.getD (n + i) 0 := by
  by_cases h : n + i < buf.length
  · rw [List.getD_eq_getElem _ _ (by simp only [List.length_drop]; omega),
      List.getD_eq_getElem _ _ h]
    exact List.getElem_drop _
  · rw [List.getD_eq_default _ _ (by simp only [List.length_drop]; omega),
      List.getD_eq_default _ _ (by omega)]

theorem writeRegion_length (buf u : List Nat) (s l : Nat)
    (hu : u.length ≤ l) (hs : s + l ≤ buf.length) :
    (writeRegion buf s l u).length = buf.length := by
  unfold writeRegion
  simp only [List.length_append, List.length_take, List.length_replicate,
    List.length_drop]
  omega

theorem writeRegion_getD_outside (buf u : List Nat) (s l i : Nat)
    (hu : u.length ≤ l) (hs : s + l ≤ buf.length)
    (h : i < s ∨ s + l ≤ i) :
    (writeRegion buf s l u).getD i 0 = buf.getD i 0 := by
  unfold writeRegion
  have hA : (buf.take s).length = s := by
    simp only [List.length_take]
    omega
  rcases h with h | h
  · rw [List.getD_append _ _ _ _ (by
      simp only [List.length_append, List.length_replicate, hA]
      omega)]
    rw [List.getD_append _ _ _ _ (by
      simp only [List.length_append, hA]
      omega)]
    rw [List.getD_append _ _ _ _ (by omega)]
    exact getD_take_lt buf s i h (by omega)
  · by_cases hlen : i < buf.length
    · rw [List.getD_append_right _ _ _ _ (by
        simp only [List.length_append, List.length_replicate, hA]
        omega)]
      simp only [List.length_append, List.length_replicate, hA]
      rw [getD_drop_add]
      congr 1
      omega
    · rw [List.getD_eq_default _ _ (by
        simp only [List.length_append, List.length_take,
          List.length_replicate, List.length_drop]
        omega)]
      rw [List.getD_eq_default _ _ (by omega)]

theorem writeRegion_getD_u (buf u : List Nat) (s l j : Nat)
    (hu : u.length ≤ l) (hs : s + l ≤ buf.length) (hj : j < u.length) :
    (writeRegion buf s l u).getD (s + j) 0 = u.getD j 0 := by
  unfold writeRegion
  have hA : (buf.take s).length = s := by
    simp only [List.length_take]
    omega
  rw [List.getD_append _ _ _ _ (by
    simp only [List.length_append, List.length_replicate, hA]
    omega)]
  rw [List.getD_append _ _ _ _ (by
    simp only [List.length_append, hA]
    omega)]
  rw [List.getD_append_right _ _ _ _ (by omega), hA]
  congr 1
  omega

theorem writeRegion_getD_fill (buf u : List Nat) (s l j : Nat)
    (hu : u.length ≤ l) (hs : s + l ≤ buf.length) (hj1 : u.length ≤ j)
    (hj2 : j < l) :
    (writeRegion buf s l u).getD (s + j) 0 = 255 := by
  unfold writeRegion
  have hA : (buf.take s).length = s := by
    simp only [List.length_take]
    omega
  rw [List.getD_append _ _ _ _ (by
    simp only [List.length_append, List.length_replicate, hA]
    omega)]
  rw [List.getD_append_right _ _ _ _ (by
    simp only [List.length_append, hA]
    omega)]
  simp only [List.length_append, hA]
  rw [List.getD_eq_getElem _ _ (by
    simp only [List.length_replicate]
    omega)]
  exact List.getElem_replicate _ _

theorem getLast?_mem {α : Type} (l : List α) (a : α)
    (h : l.getLast? = some a) : a ∈ l := by
  induction l with
  | nil => cases h
  | cons x t ih =>
    cases t with
    | nil =>
      simp only [List.getLast?_singleton, Option.some.injEq] at h
      subst h
      exact List.mem_singleton_self _
    | cons y t2 =>
      rw [List.getLast?_cons_cons] at h
      exact List.mem_cons_of_mem _ (ih h)

theorem FFS_init_body_bounds (data : List Nat) (r : FFSRec)
    (h : FFS_init data = .ok r) :
    24 ≤ data.length ∧ 24 + r.body.length ≤ data.length := by
  obtain ⟨h1, _, _, h4⟩ := oversized_record_clamped data r h
  refine ⟨h1, ?_⟩
  omega

theorem patchLoopFuel_ok (u : List Nat) :
    ∀ (fuel : Nat) (buf : List Nat) (pos : Nat) (out : List Nat)
      (regs : List (Nat × Nat)),
      patchLoopFuel u fuel buf pos = .ok (out, regs) →
      out.length = buf.length ∧
      (∀ rg ∈ regs, 24 ≤ rg.1 ∧ rg.1 + rg.2 ≤ buf.length ∧
        u.length ≤ rg.2) ∧
      (∀ i, (∀ rg ∈ regs, i < rg.1 ∨ rg.1 + rg.2 ≤ i) →
        out.getD i 0 = buf.getD i 0) ∧
      (regs = [] → out = buf) ∧
      (∀ s l, regs.getLast? = some (s, l) →
        (∀ j, j < u.length → out.getD (s + j) 0 = u.getD j 0) ∧
        (∀ j, u.length ≤ j → j < l → out.getD (s + j) 0 = 255))
  | 0, buf, pos, out, regs, h => by cases h
  | fuel + 1, buf, pos, out, regs, h => by
    cases hfind : strFind buf UCODE_FFS_GUID pos with
    | none =>
      simp only [patchLoopFuel, hfind] at h
      injection h with h2
      injection h2 with h3 h4
      subst h3
      subst h4
      exact ⟨rfl, by simp, fun i _ => rfl, fun _ => rfl, fun s l hl => by
        cases hl⟩
    | some o =>
      cases hffs : FFS_init (buf.drop o) with
      | error e =>
        cases e with
        | valueErr =>
          simp only [patchLoopFuel, hfind, hffs] at h
          cases h
        | chksum =>
          simp only [patchLoopFuel, hfind, hffs] at h
          exact patchLoopFuel_ok u fuel buf (o + 16) out regs h
      | ok r =>
        simp only [patchLoopFuel, hfind, hffs] at h
        by_cases hhang : walkRun r.body = none
        · rw [if_pos hhang] at h
          cases h
        · rw [if_neg hhang] at h
          by_cases hfit : r.body.length < u.length
          · rw [if_pos hfit] at h
            cases h
          · rw [if_neg hfit] at h
            obtain ⟨hb1, hb2⟩ := FFS_init_body_bounds (buf.drop o) r hffs
            rw [List.length_drop] at hb1 hb2
            have hu : u.length ≤ r.body.length := by omega
            have hs : (o + 24) + r.body.length ≤ buf.length := by omega
            cases hrec : patchLoopFuel u fuel
                (writeRegion buf (o + 24) r.body.length u) (o + 16) with
            | error e =>
              rw [hrec] at h
              cases h
            | ok p =>
              rw [hrec] at h
              simp only [Except.map] at h
              injection h with h2
              injection h2 with h3 h4
              subst h3
              subst h4
              obtain ⟨ih1, ih2, ih3, ih4, ih5⟩ :=
                patchLoopFuel_ok u fuel
                  (writeRegion buf (o + 24) r.body.length u) (o + 16) p.1 p.2
                  hrec
              have hwl := writeRegion_length buf u (o + 24) r.body.length hu hs
              refine ⟨by omega, ?_, ?_, ?_, ?_⟩
              · intro rg hrg
                rcases List.mem_cons.mp hrg with rfl | hrg2
                · exact ⟨by omega, by omega, hu⟩
                · have := ih2 rg hrg2
                  omega
              · intro i hi
                have hout : i < o + 24 ∨ o + 24 + r.body.length ≤ i := by
                  have := hi (o + 24, r.body.length) (List.mem_cons_self _ _)
                  simpa using this
                rw [ih3 i (fun rg hrg => hi rg (List.mem_cons_of_mem _ hrg))]
                exact writeRegion_getD_outside buf u (o + 24) r.body.length i
                  hu hs hout
              · intro habs
                cases habs
              · intro s l hl
                cases hregs2 : p.2 with
                | nil =>
                  rw [hregs2] at hl
                  simp only [List.getLast?_singleton, Option.some.injEq] at hl
                  have hs' : s = o + 24 ∧ l = r.body.length := by
                    constructor
                    · exact (congrArg Prod.fst hl).symm
                    · exact (congrArg Prod.snd hl).symm
                  obtain ⟨rfl, rfl⟩ := hs'
                  have hout := ih4 hregs2
                  constructor
                  · intro j hj
                    rw [hout]
                    exact writeRegion_getD_u buf u _ _ j hu hs hj
                  · intro j hj1 hj2
                    rw [hout]
                    exact writeRegion_getD_fill buf u _ _ j hu hs hj1 hj2
                | cons q qs =>
                  rw [hregs2, List.getLast?_cons_cons] at hl
                  rw [← hregs2] at hl
                  exact ih5 s l hl

/-! ## C1 -/

set_option maxRecDepth 100000 in
/-- C1 counterexample: on the image `cex1img` — whose record at offset 0
passes header validation with a 44-byte body, with the 21-byte content
`cex1u` fitting that body — the patch pass patches region (24, 44), the
patch itself plants a second valid record at offset 20 (the scan re-polls
the mutated buffer), and that record's patch over region (44, 24)
overwrites part of the first body: the final byte at image offset 44 —
index 20 of the first patched body — is 0x56, not `cex1u[20] = 0`.  So a
patched record's body does not always begin with the replacement content
byte-for-byte, refuting the claim as stated. -/
theorem patched_body_not_content_prefix :
    (patchPass cex1img cex1u).map
        (fun p => (p.2, p.1.getD 44 0, p.1.length)) =
      .ok ([(24, 44), (44, 24)], 0x56, 68) ∧
    cex1u.getD 20 0 = 0 ∧
    (FFS_init cex1img).toOption.map (fun r => r.body.length) = some 44 ∧
    cex1u.length = 21 := by
  decide

/-- C1 (amended): whenever the patch pass completes without an uncaught
error, the output has exactly the input image's length; every byte
outside all patched body regions equals the corresponding original byte;
if no record was patched the image is untouched; and the *last* patched
record's body begins with the replacement content byte-for-byte with
every remaining byte of that body equal to 0xFF.  (Earlier patched bodies
may be partially overwritten when a later accepted record overlaps them,
as the counterexample shows.) -/
theorem patch_pass_properties (rom u out : List Nat)
    (regs : List (Nat × Nat)) (h : patchPass rom u = .ok (out, regs)) :
    out.length = rom.length ∧
    (∀ i, (∀ rg ∈ regs, i < rg.1 ∨ rg.1 + rg.2 ≤ i) →
      out.getD i 0 = rom.getD i 0) ∧
    (regs = [] → out = rom) ∧
    (∀ s l, regs.getLast? = some (s, l) →
      u.length ≤ l ∧
      (∀ j, j < u.length → out.getD (s + j) 0 = u.getD j 0) ∧
      (∀ j, u.length ≤ j → j < l → out.getD (s + j) 0 = 255)) := by
  obtain ⟨h1, h2, h3, h4, h5⟩ :=
    patchLoopFuel_ok u (rom.length + 2) rom 0 out regs h
  refine ⟨h1, h3, h4, ?_⟩
  intro s l hl
  have hmem := getLast?_mem regs (s, l) hl
  exact ⟨(h2 (s, l) hmem).2.2, (h5 s l hl).1, (h5 s l hl).2⟩

set_option maxRecDepth 100000 in
/-- Witness for C1 (amended) at a concrete input: patching `cex9` with
the one-byte content `[0xAB]` yields `cex9out` with the single region
(24, 6); the theorem's conclusions are therefore available for it. -/
theorem patch_pass_properties_witness :
    cex9out.length = cex9.length ∧
    (∀ i, (∀ rg ∈ ([(24, 6)] : List (Nat × Nat)),
        i < rg.1 ∨ rg.1 + rg.2 ≤ i) →
      cex9out.getD i 0 = cex9.getD i 0) ∧
    (([(24, 6)] : List (Nat × Nat)) = [] → cex9out = cex9) ∧
    (∀ s l, ([(24, 6)] : List (Nat × Nat)).getLast? = some (s, l) →
      ([0xAB] : List Nat).length ≤ l ∧
      (∀ j, j < ([0xAB] : List Nat).length →
        cex9out.getD (s + j) 0 = ([0xAB] : List Nat).getD j 0) ∧
      (∀ j, ([0xAB] : List Nat).length ≤ j → j < l →
        cex9out.getD (s + j) 0 = 255)) :=
  patch_pass_properties cex9 [0xAB] cex9out [(24, 6)] (by decide)

/-! ## C4 -/

/-- C4: (i) when the replacement content fails its update-blob
validation, the run stops with the fatal `ucodeInvalid` error — the image
buffer is never touched and no output is produced (in the source,
`IntelUCode(new_ucode)` raises before the scan loop even starts);
(ii) when the patch pass completes with the image byte-identical to the
original, the final `assert rom != orig_rom` fails: the run reports
`noChange` and no output is produced; (iii) a container-record checksum
failure at a scan hit is non-fatal: the loop state is exactly the state
that skips the hit and resumes the scan at `offset + 16` with the buffer
unchanged. -/
theorem main_error_handling :
    (∀ (rom u : List Nat) (e : RecErr), IntelUCode_init u = .error e →
      mainRun rom u = .error .ucodeInvalid) ∧
    (∀ (rom u out : List Nat) (regs : List (Nat × Nat)) (w : UCodeRec)
      (t : Nat × Nat), IntelUCode_init u = .ok w → walkRun u = some t →
      patchPass rom u = .ok (out, regs) → out = rom →
      mainRun rom u = .error .noChange) ∧
    (∀ (u buf : List Nat) (fuel pos o : Nat),
      strFind buf UCODE_FFS_GUID pos = some o →
      FFS_init (buf.drop o) = .error .chksum →
      patchLoopFuel u (fuel + 1) buf pos = patchLoopFuel u fuel buf (o + 16)) := by
  refine ⟨?_, ?_, ?_⟩
  · intro rom u e he
    simp only [mainRun, he]
  · intro rom u out regs w t hw ht hp hout
    subst hout
    simp only [mainRun, hw, ht, hp, ne_eq, not_true_eq_false, if_false,
      if_pos rfl, if_true]
  · intro u buf fuel pos o hfind hffs
    simp only [patchLoopFuel, hfind, hffs]

/-- Witness for C4 at a concrete input: the empty replacement content is
rejected (`ValueError` from the 48-byte header decode) and the run on any
image — here the empty one — aborts with `ucodeInvalid`. -/
theorem main_error_handling_witness :
    IntelUCode_init [] = .error .valueErr ∧
      mainRun [] [] = .error .ucodeInvalid :=
  ⟨by decide, main_error_handling.1 [] [] .valueErr (by decide)⟩

end ReplaceUcode

